import Mathlib

/-!
Verification of the claude-redline review system against its sources.

The repository ships the browser-side review frontend (React/TypeScript under
`src/frontend` and related variants) together with documentation.  The Python
session broker / HTTP gateway / protocol adapter described by the design
document are not part of the shipped sources, so those components are
modelled here directly from the specification text (each such definition is
marked `Modelled from the spec:`).  Everything else is a direct shallow
embedding of the TypeScript sources.
-/

namespace Redline

/-- Model of JavaScript `String.prototype.trim`: remove whitespace characters
from both ends of the string (`src/frontend/src/App.tsx` uses
`overallComment.trim()` etc.).  Whitespace is modelled by `Char.isWhitespace`. -/
def jsTrim (s : String) : String :=
  ⟨((s.data.dropWhile Char.isWhitespace).reverse.dropWhile Char.isWhitespace).reverse⟩

/-- Dropping a prefix satisfying `p` twice is the same as dropping it once. -/
theorem dropWhile_dropWhile_eq (p : Char → Bool) (l : List Char) :
    (l.dropWhile p).dropWhile p = l.dropWhile p := by
  induction l with
  | nil => rfl
  | cons a t ih =>
    by_cases h : p a
    · simp [List.dropWhile_cons, h, ih]
    · simp [List.dropWhile_cons, h]

/-- Dropping from the front of `l ++ [a]` keeps the final `a` when `p a` is
false. -/
theorem dropWhile_append_singleton (p : Char → Bool) (a : Char) (ha : p a = false)
    (l : List Char) : ∃ s, (l ++ [a]).dropWhile p = s ++ [a] := by
  induction l with
  | nil => exact ⟨[], by simp [List.dropWhile_cons, ha]⟩
  | cons b t ih =>
    by_cases h : p b
    · obtain ⟨s, hs⟩ := ih
      exact ⟨s, by simp [List.dropWhile_cons, h, hs]⟩
    · exact ⟨b :: t, by simp [List.dropWhile_cons, h]⟩

/-- If a list has no leading whitespace then trimming its trailing whitespace
leaves a list that still has no leading whitespace. -/
theorem dropWhile_reverse_dropWhile (p : Char → Bool) (l : List Char)
    (hl : l.dropWhile p = l) :
    ((l.reverse.dropWhile p).reverse).dropWhile p = (l.reverse.dropWhile p).reverse := by
  cases l with
  | nil => rfl
  | cons a t =>
    have ha : p a = false := by
      by_contra hpa
      have hpa' : p a = true := by
        cases h : p a
        · exact absurd h hpa
        · rfl
      have h1 : (a :: t).dropWhile p = t.dropWhile p := by
        simp [List.dropWhile_cons, hpa']
      have h2 : (t.dropWhile p).length ≤ t.length := (List.dropWhile_sublist (l := t) p).length_le
      have := congrArg List.length (h1 ▸ hl)
      simp at this
      omega
    obtain ⟨s, hs⟩ := dropWhile_append_singleton p a ha t.reverse
    have hrev : (a :: t).reverse = t.reverse ++ [a] := by simp
    rw [hrev, hs]
    simp [List.dropWhile_cons, ha]

/-- The JavaScript trim is idempotent. -/
theorem jsTrim_idem (s : String) : jsTrim (jsTrim s) = jsTrim s := by
  unfold jsTrim
  apply congrArg String.mk
  set p := Char.isWhitespace with hp
  set A := s.data.dropWhile p with hA
  have hA' : A.dropWhile p = A := dropWhile_dropWhile_eq p s.data
  set C := (A.reverse.dropWhile p).reverse with hC
  have h1 : C.dropWhile p = C := dropWhile_reverse_dropWhile p A hA'
  have h2 : C.reverse.dropWhile p = C.reverse := by
    rw [hC, List.reverse_reverse]
    exact dropWhile_dropWhile_eq p A.reverse
  show ((C.dropWhile p).reverse.dropWhile p).reverse = C
  rw [h1, h2, List.reverse_reverse]

/-- Inline comment as built by the variant frontend
(`src/unnamed/part_003`, interface `Comment`, lines 14–21): the `context`
field stores surrounding text used to uniquely identify the quoted
occurrence. -/
structure Comment where
  id : String
  quote : String
  full_line_text : String
  user_comment : String
  timestamp : Nat
  context : String
  deriving Repr, DecidableEq

/-- Code comment as built by the variant frontend (`src/unnamed/part_003`,
interface `CodeComment`, lines 23–31). -/
structure CodeComment where
  id : String
  file_path : String
  line_start : Nat
  line_end : Nat
  quote : String
  user_comment : String
  timestamp : Nat
  deriving Repr, DecidableEq

/-- Inline comment as built by `src/frontend/src/App.tsx` (interface
`Comment`, lines 13–19; it has no `context` field). -/
structure AppComment where
  id : String
  quote : String
  full_line_text : String
  user_comment : String
  timestamp : Nat
  deriving Repr, DecidableEq

/-- Overall-comment computation of `handleFinalSubmit` in
`src/frontend/src/App.tsx` (lines 327–338):
`(comments.length === 0 && !overallComment.trim()) ? 'LGTM'
 : (overallComment.trim() || null)`. -/
def finalOverallComment (comments : List AppComment) (overallComment : String) :
    Option String :=
  if comments.length = 0 ∧ jsTrim overallComment = "" then some "LGTM"
  else if jsTrim overallComment = "" then none
  else some (jsTrim overallComment)

/-- Overall-comment computation of `handleFinalSubmit` in the variant frontend
(`src/unnamed/part_003`, lines 447–459), which additionally requires the code
comment list to be empty before synthesizing the approval marker. -/
def finalOverallCommentCtx (comments : List Comment) (codeComments : List CodeComment)
    (overallComment : String) : Option String :=
  if comments.length = 0 ∧ codeComments.length = 0 ∧ jsTrim overallComment = "" then
    some "LGTM"
  else if jsTrim overallComment = "" then none
  else some (jsTrim overallComment)

/-- Feedback payload POSTed to `/api/submit` by the variant frontend
(`src/unnamed/part_003`, lines 455–459). -/
structure SubmitPayload where
  comments : List Comment
  code_comments : List CodeComment
  user_overall_comment : Option String
  deriving Repr, DecidableEq

/-- Payload assembly of `handleFinalSubmit` (`src/unnamed/part_003`,
lines 447–459). -/
def handleFinalSubmitPayload (comments : List Comment) (codeComments : List CodeComment)
    (overallComment : String) : SubmitPayload :=
  { comments := comments
    code_comments := codeComments
    user_overall_comment := finalOverallCommentCtx comments codeComments overallComment }

/-- C1: when the human supplies zero inline comments (in both frontend
variants also zero code comments) and an empty overall comment, the feedback
payload's overall comment is the non-empty explicit approval marker `LGTM`,
never empty or null. -/
theorem c1_empty_submission_yields_approval_marker
    (comments : List AppComment) (cctx : List Comment) (codeComments : List CodeComment)
    (overall : String)
    (hc : comments = []) (hcc : cctx = []) (hcode : codeComments = [])
    (ho : jsTrim overall = "") :
    finalOverallComment comments overall = some "LGTM" ∧
    (handleFinalSubmitPayload cctx codeComments overall).user_overall_comment = some "LGTM" ∧
    ("LGTM" : String) ≠ "" := by
  subst hc; subst hcc; subst hcode
  refine ⟨?_, ?_, by decide⟩
  · simp [finalOverallComment, ho]
  · simp [handleFinalSubmitPayload, finalOverallCommentCtx, ho]

/-- Witness for C1 at the concrete empty submission. -/
theorem c1_empty_submission_yields_approval_marker_witness :
    finalOverallComment [] "" = some "LGTM" ∧
    (handleFinalSubmitPayload [] [] "").user_overall_comment = some "LGTM" ∧
    ("LGTM" : String) ≠ "" :=
  c1_empty_submission_yields_approval_marker [] [] [] "" rfl rfl rfl rfl

/-- C8: for every submitted feedback payload (both frontend variants), the
`user_overall_comment` field is never the empty string: it is null, the
approval marker `LGTM`, or a non-empty whitespace-trimmed string. -/
theorem c8_user_overall_comment_never_empty
    (comments : List AppComment) (cctx : List Comment) (codeComments : List CodeComment)
    (overall : String) :
    (finalOverallComment comments overall = none ∨
      finalOverallComment comments overall = some "LGTM" ∨
      ∃ m, finalOverallComment comments overall = some m ∧ m ≠ "" ∧ jsTrim m = m) ∧
    ((handleFinalSubmitPayload cctx codeComments overall).user_overall_comment = none ∨
      (handleFinalSubmitPayload cctx codeComments overall).user_overall_comment = some "LGTM" ∨
      ∃ m, (handleFinalSubmitPayload cctx codeComments overall).user_overall_comment = some m ∧
        m ≠ "" ∧ jsTrim m = m) := by
  constructor
  · unfold finalOverallComment
    split
    · exact Or.inr (Or.inl rfl)
    · split
      · exact Or.inl rfl
      · rename_i h1 h2
        exact Or.inr (Or.inr ⟨jsTrim overall, rfl, h2, jsTrim_idem overall⟩)
  · have h : (handleFinalSubmitPayload cctx codeComments overall).user_overall_comment
        = finalOverallCommentCtx cctx codeComments overall := rfl
    rw [h]
    unfold finalOverallCommentCtx
    split
    · exact Or.inr (Or.inl rfl)
    · split
      · exact Or.inl rfl
      · rename_i h1 h2
        exact Or.inr (Or.inr ⟨jsTrim overall, rfl, h2, jsTrim_idem overall⟩)

/-- Parsed code reference, as produced by the frontend's shared regex
`/\[\[file:([^:\]]+)(?::(\d+)(?:-(\d+))?)?\]\]/g`
(`src/frontend/src/utils/exportHtml.ts` line 28, `src/unnamed/part_003`
line 91). -/
structure CodeRef where
  filePath : String
  lineNumber : Option Nat
  lineEnd : Option Nat
  deriving Repr, DecidableEq

/-- Literal prefix `[[file:` of the code-reference pattern. -/
def litFile : List Char := ['[', '[', 'f', 'i', 'l', 'e', ':']

/-- Strip an expected literal from the front of the input, or fail. -/
def stripLiteral : List Char → List Char → Option (List Char)
  | [], l => some l
  | _ :: _, [] => none
  | c :: cs, d :: ds => if d = c then stripLiteral cs ds else none

/-- Character class `[^:\]]` of the path group. -/
def isPathChar (c : Char) : Bool := c ≠ ':' ∧ c ≠ ']'

/-- Decimal value of a digit string, as computed by `parseInt(digits, 10)`
on an all-digit match of `\d+`. -/
def parseDigits (ds : List Char) : Nat :=
  ds.foldl (fun n c => n * 10 + (c.toNat - '0'.toNat)) 0

/-- Match of the code-reference regex anchored at the start of `l`.  On
success, returns the raw matched characters (`match[0]`), the captured
reference, and the remaining input after the match.  The regex
`\[\[file:([^:\]]+)(?::(\d+)(?:-(\d+))?)?\]\]` matches deterministically:
the path group stops at the first `:` or `]`, and each `\d+` is a maximal
digit run (any backtracked shorter choice is followed by a character the
continuation rejects). -/
def tryMatch (l : List Char) : Option (List Char × CodeRef × List Char) :=
  match stripLiteral litFile l with
  | none => none
  | some l1 =>
    if (l1.takeWhile isPathChar).isEmpty then none
    else
      match l1.dropWhile isPathChar with
      | ']' :: ']' :: rest =>
          some (litFile ++ l1.takeWhile isPathChar ++ [']', ']'],
                ⟨⟨l1.takeWhile isPathChar⟩, none, none⟩, rest)
      | ':' :: l3 =>
        if (l3.takeWhile Char.isDigit).isEmpty then none
        else
          match l3.dropWhile Char.isDigit with
          | ']' :: ']' :: rest =>
              some (litFile ++ l1.takeWhile isPathChar ++ ':' :: l3.takeWhile Char.isDigit
                      ++ [']', ']'],
                    ⟨⟨l1.takeWhile isPathChar⟩, some (parseDigits (l3.takeWhile Char.isDigit)),
                      none⟩, rest)
          | '-' :: l5 =>
            if (l5.takeWhile Char.isDigit).isEmpty then none
            else
              match l5.dropWhile Char.isDigit with
              | ']' :: ']' :: rest =>
                  some (litFile ++ l1.takeWhile isPathChar ++ ':' :: l3.takeWhile Char.isDigit
                          ++ '-' :: l5.takeWhile Char.isDigit ++ [']', ']'],
                        ⟨⟨l1.takeWhile isPathChar⟩, some (parseDigits (l3.takeWhile Char.isDigit)),
                          some (parseDigits (l5.takeWhile Char.isDigit))⟩, rest)
              | _ => none
          | _ => none
      | _ => none

/-- All matches found by the global regex scan (the `while (regex.exec(text))`
loop): at each position try to match; on success continue after the match,
otherwise advance one character.  `fuel` bounds the recursion and is
instantiated with the input length. -/
def scanAux : Nat → List Char → List (List Char × CodeRef)
  | 0, _ => []
  | fuel + 1, l =>
    match tryMatch l with
    | some (raw, r, rest) => (raw, r) :: scanAux fuel rest
    | none =>
      match l with
      | [] => []
      | _ :: cs => scanAux fuel cs

/-- All raw-match/reference pairs of the scan over a string. -/
def scanMatches (s : String) : List (List Char × CodeRef) :=
  scanAux s.data.length s.data

/-- All references found in a string, in match order. -/
def scanRefs (s : String) : List CodeRef :=
  (scanMatches s).map Prod.snd

/-- Body of `parseCodeReferences` from
`src/frontend/src/utils/exportHtml.ts` (lines 23–47): scan all matches,
keeping only the first occurrence of each file path (the `seen` set). -/
def parseCodeRefsAux : Nat → List Char → List String → List CodeRef
  | 0, _, _ => []
  | fuel + 1, l, seen =>
    match tryMatch l with
    | some (_, r, rest) =>
      if r.filePath ∈ seen then parseCodeRefsAux fuel rest seen
      else r :: parseCodeRefsAux fuel rest (r.filePath :: seen)
    | none =>
      match l with
      | [] => []
      | _ :: cs => parseCodeRefsAux fuel cs seen

/-- Embedding of `parseCodeReferences` from
`src/frontend/src/utils/exportHtml.ts` (lines 23–47). -/
def parseCodeReferences (s : String) : List CodeRef :=
  parseCodeRefsAux s.data.length s.data []

/-- Stripping a literal succeeds exactly on inputs that extend it. -/
theorem stripLiteral_eq : ∀ (lit l l1 : List Char), stripLiteral lit l = some l1 →
    l = lit ++ l1 := by
  intro lit
  induction lit with
  | nil =>
    intro l l1 h
    simp only [stripLiteral, Option.some.injEq] at h
    simp [h]
  | cons c cs ih =>
    intro l l1 h
    cases l with
    | nil => simp [stripLiteral] at h
    | cons d ds =>
      simp only [stripLiteral] at h
      split at h
      · rename_i hd
        subst hd
        simpa using ih ds l1 h
      · exact absurd h (by simp)

/-- A successful match decomposes the input as the raw match followed by the
rest. -/
theorem tryMatch_append {l raw rest : List Char} {r : CodeRef}
    (h : tryMatch l = some (raw, r, rest)) : l = raw ++ rest := by
  unfold tryMatch at h
  split at h
  · exact absurd h (by simp)
  · rename_i l1 hstrip
    have hl1 : l = litFile ++ l1 := stripLiteral_eq _ _ _ hstrip
    have hsplit1 : l1.takeWhile isPathChar ++ l1.dropWhile isPathChar = l1 :=
      List.takeWhile_append_dropWhile isPathChar l1
    split at h
    · exact absurd h (by simp)
    · split at h
      · rename_i rest1 hdrop
        simp only [Option.some.injEq, Prod.mk.injEq] at h
        obtain ⟨hraw, _, hrest⟩ := h
        subst hraw; subst hrest
        have key1 : l1 = l1.takeWhile isPathChar ++ (']' :: ']' :: rest1) := by
          rw [← hdrop]; exact hsplit1.symm
        conv_lhs => rw [hl1, key1]
        simp
      · rename_i l3 hdrop
        have hsplit2 : l3.takeWhile Char.isDigit ++ l3.dropWhile Char.isDigit = l3 :=
          List.takeWhile_append_dropWhile Char.isDigit l3
        split at h
        · exact absurd h (by simp)
        · split at h
          · rename_i rest1 hdrop2
            simp only [Option.some.injEq, Prod.mk.injEq] at h
            obtain ⟨hraw, _, hrest⟩ := h
            subst hraw; subst hrest
            have key2 : l3 = l3.takeWhile Char.isDigit ++ (']' :: ']' :: rest1) := by
              rw [← hdrop2]; exact hsplit2.symm
            have key1 : l1 = l1.takeWhile isPathChar ++ (':' :: l3) := by
              rw [← hdrop]; exact hsplit1.symm
            conv_lhs => rw [hl1, key1, key2]
            simp
          · rename_i l5 hdrop2
            have hsplit3 : l5.takeWhile Char.isDigit ++ l5.dropWhile Char.isDigit = l5 :=
              List.takeWhile_append_dropWhile Char.isDigit l5
            split at h
            · exact absurd h (by simp)
            · split at h
              · rename_i rest1 hdrop3
                simp only [Option.some.injEq, Prod.mk.injEq] at h
                obtain ⟨hraw, _, hrest⟩ := h
                subst hraw; subst hrest
                have key3 : l5 = l5.takeWhile Char.isDigit ++ (']' :: ']' :: rest1) := by
                  rw [← hdrop3]; exact hsplit3.symm
                have key2 : l3 = l3.takeWhile Char.isDigit ++ ('-' :: l5) := by
                  rw [← hdrop2]; exact hsplit2.symm
                have key1 : l1 = l1.takeWhile isPathChar ++ (':' :: l3) := by
                  rw [← hdrop]; exact hsplit1.symm
                conv_lhs => rw [hl1, key1, key2, key3]
                simp
              · exact absurd h (by simp)
          · exact absurd h (by simp)
      · exact absurd h (by simp)

/-- The raw text of a successful match starts with the literal `[[file:`. -/
theorem tryMatch_raw_ne_nil {l raw rest : List Char} {r : CodeRef}
    (h : tryMatch l = some (raw, r, rest)) : raw ≠ [] := by
  unfold tryMatch at h
  split at h
  · exact absurd h (by simp)
  · split at h
    · exact absurd h (by simp)
    · split at h
      · simp only [Option.some.injEq, Prod.mk.injEq] at h
        obtain ⟨hraw, _, _⟩ := h
        subst hraw; simp [litFile]
      · split at h
        · exact absurd h (by simp)
        · split at h
          · simp only [Option.some.injEq, Prod.mk.injEq] at h
            obtain ⟨hraw, _, _⟩ := h
            subst hraw; simp [litFile]
          · split at h
            · exact absurd h (by simp)
            · split at h
              · simp only [Option.some.injEq, Prod.mk.injEq] at h
                obtain ⟨hraw, _, _⟩ := h
                subst hraw; simp [litFile]
              · exact absurd h (by simp)
          · exact absurd h (by simp)
      · exact absurd h (by simp)

/-- Keep only the first reference for each file path, given an initial set of
already-seen paths; this is the pure content of the `seen` logic in
`parseCodeReferences`. -/
def dedupeByPath : List CodeRef → List String → List CodeRef
  | [], _ => []
  | r :: rs, seen =>
    if r.filePath ∈ seen then dedupeByPath rs seen
    else r :: dedupeByPath rs (r.filePath :: seen)

/-- The fused scan-and-dedupe of `parseCodeReferences` equals deduplicating
the full match list. -/
theorem parseCodeRefsAux_eq_dedupe :
    ∀ (fuel : Nat) (l : List Char) (seen : List String),
      parseCodeRefsAux fuel l seen = dedupeByPath ((scanAux fuel l).map Prod.snd) seen := by
  intro fuel
  induction fuel with
  | zero => intro l seen; rfl
  | succ fuel ih =>
    intro l seen
    cases htm : tryMatch l with
    | some t =>
      obtain ⟨raw, r, rest⟩ := t
      simp only [parseCodeRefsAux, scanAux, htm, List.map_cons, dedupeByPath]
      by_cases hseen : r.filePath ∈ seen
      · simp [hseen, ih]
      · simp [hseen, ih]
    | none =>
      cases l with
      | nil => simp [parseCodeRefsAux, scanAux, htm, dedupeByPath]
      | cons c cs =>
        simp only [parseCodeRefsAux, scanAux, htm]
        exact ih cs seen

/-- Every path in the dedupe output was not already seen. -/
theorem dedupeByPath_not_seen :
    ∀ (rs : List CodeRef) (seen : List String) (r : CodeRef),
      r ∈ dedupeByPath rs seen → r.filePath ∉ seen := by
  intro rs
  induction rs with
  | nil => intro seen r h; simp [dedupeByPath] at h
  | cons a t ih =>
    intro seen r h
    by_cases hseen : a.filePath ∈ seen
    · rw [dedupeByPath, if_pos hseen] at h
      exact ih seen r h
    · rw [dedupeByPath, if_neg hseen] at h
      rcases List.mem_cons.mp h with h | h
      · subst h; exact hseen
      · intro hr
        exact ih (a.filePath :: seen) r h (List.mem_cons_of_mem _ hr)

/-- The dedupe output has pairwise-distinct file paths. -/
theorem dedupeByPath_nodup :
    ∀ (rs : List CodeRef) (seen : List String),
      ((dedupeByPath rs seen).map (fun r => r.filePath)).Nodup := by
  intro rs
  induction rs with
  | nil => intro seen; simp [dedupeByPath]
  | cons a t ih =>
    intro seen
    by_cases hseen : a.filePath ∈ seen
    · rw [dedupeByPath, if_pos hseen]
      exact ih seen
    · rw [dedupeByPath, if_neg hseen]
      simp only [List.map_cons, List.nodup_cons]
      refine ⟨?_, ih (a.filePath :: seen)⟩
      intro hmem
      obtain ⟨r, hr, hpath⟩ := List.mem_map.mp hmem
      exact dedupeByPath_not_seen _ _ _ hr (by simp [hpath])

/-- A path appears in the dedupe output iff it appears in the input and was
not already seen. -/
theorem dedupeByPath_mem_path :
    ∀ (rs : List CodeRef) (seen : List String) (p : String),
      p ∈ (dedupeByPath rs seen).map (fun r => r.filePath) ↔
        (p ∈ rs.map (fun r => r.filePath) ∧ p ∉ seen) := by
  intro rs
  induction rs with
  | nil => intro seen p; simp [dedupeByPath]
  | cons a t ih =>
    intro seen p
    by_cases hseen : a.filePath ∈ seen
    · rw [dedupeByPath, if_pos hseen, ih]
      simp only [List.map_cons, List.mem_cons]
      constructor
      · rintro ⟨h1, h2⟩; exact ⟨Or.inr h1, h2⟩
      · rintro ⟨h1 | h1, h2⟩
        · exact absurd (h1 ▸ hseen) h2
        · exact ⟨h1, h2⟩
    · rw [dedupeByPath, if_neg hseen]
      simp only [List.map_cons, List.mem_cons, ih]
      constructor
      · rintro (h | ⟨h1, h2⟩)
        · subst h; exact ⟨Or.inl rfl, hseen⟩
        · exact ⟨Or.inr h1, fun hp => h2 (Or.inr hp)⟩
      · rintro ⟨h1 | h1, h2⟩
        · exact Or.inl h1
        · by_cases hpa : p = a.filePath
          · exact Or.inl hpa
          · refine Or.inr ⟨h1, ?_⟩
            rintro (hc | hc)
            · exact hpa hc
            · exact h2 hc

/-- Each entry the dedupe keeps is the first input entry with its path. -/
theorem dedupeByPath_first :
    ∀ (rs : List CodeRef) (seen : List String) (r : CodeRef),
      r ∈ dedupeByPath rs seen →
        rs.find? (fun x => x.filePath == r.filePath) = some r := by
  intro rs
  induction rs with
  | nil => intro seen r h; simp [dedupeByPath] at h
  | cons a t ih =>
    intro seen r h
    by_cases hseen : a.filePath ∈ seen
    · rw [dedupeByPath, if_pos hseen] at h
      have hne : a.filePath ≠ r.filePath := by
        intro he
        exact dedupeByPath_not_seen _ _ _ h (he ▸ hseen)
      rw [List.find?_cons_of_neg _ (by simpa using hne)]
      exact ih seen r h
    · rw [dedupeByPath, if_neg hseen] at h
      rcases List.mem_cons.mp h with h | h
      · subst h
        rw [List.find?_cons_of_pos _ (by simp)]
      · have hr : r.filePath ∉ a.filePath :: seen := dedupeByPath_not_seen _ _ _ h
        have hne : a.filePath ≠ r.filePath := by
          intro he
          exact hr (by simp [he])
        rw [List.find?_cons_of_neg _ (by simpa using hne)]
        exact ih _ r h

/-- C9: the list returned by `parseCodeReferences` has pairwise-distinct file
paths, contains one entry per distinct path referenced by a
`[[file:path:line]]` pattern in the input (`scanRefs` lists every match of
the pattern), and each kept entry is the first match with that path, so the
first occurrence's line numbers win. -/
theorem c9_parseCodeReferences_dedupes (s : String) :
    ((parseCodeReferences s).map (fun r => r.filePath)).Nodup ∧
    (∀ p, p ∈ (parseCodeReferences s).map (fun r => r.filePath) ↔
      p ∈ (scanRefs s).map (fun r => r.filePath)) ∧
    (∀ r, r ∈ parseCodeReferences s →
      (scanRefs s).find? (fun x => x.filePath == r.filePath) = some r) := by
  have hkey : parseCodeReferences s = dedupeByPath (scanRefs s) [] :=
    parseCodeRefsAux_eq_dedupe s.data.length s.data []
  refine ⟨?_, ?_, ?_⟩
  · rw [hkey]; exact dedupeByPath_nodup _ _
  · intro p
    rw [hkey, dedupeByPath_mem_path]
    simp
  · intro r hr
    rw [hkey] at hr
    exact dedupeByPath_first _ _ _ hr

/-- Witness for C9 at a concrete input where the same path is referenced
twice with different line numbers: the kept entry carries the first
occurrence's lines. -/
theorem c9_parseCodeReferences_dedupes_witness :
    (scanRefs "[[file:a.py:1-2]] [[file:a.py:9]]").find?
        (fun x => x.filePath == (⟨"a.py", some 1, some 2⟩ : CodeRef).filePath) =
      some ⟨"a.py", some 1, some 2⟩ :=
  (c9_parseCodeReferences_dedupes "[[file:a.py:1-2]] [[file:a.py:9]]").2.2
    ⟨"a.py", some 1, some 2⟩ (by decide)

/-- One element of the node list built by `parseTextWithCodeRefs`
(`src/unnamed/part_003`, lines 87–123): either a plain-text slice of the
input or a code-reference button; `raw` records the matched substring
(`match[0]`), whose length advances `lastIndex` in the source. -/
inductive TextPart where
  | text (s : String)
  | ref (raw : String) (r : CodeRef)
  deriving Repr, DecidableEq

/-- Emit the pending text accumulator (in reverse order of accumulation) as a
single text part, or nothing if it is empty; this models the source's
`if (match.index > lastIndex) parts.push(text.slice(lastIndex, match.index))`
and the trailing `if (lastIndex < text.length) parts.push(text.slice(lastIndex))`. -/
def flushAcc (acc : List Char) : List TextPart :=
  if acc.isEmpty then [] else [TextPart.text ⟨acc.reverse⟩]

/-- Body of `parseTextWithCodeRefs` (`src/unnamed/part_003`, lines 87–123):
walk the input; at each position a successful regex match emits the pending
plain text followed by a reference part, and scanning resumes after the
match; otherwise the character joins the pending text. -/
def parseTextAux : Nat → List Char → List Char → List TextPart
  | 0, acc, l => flushAcc (l.reverse ++ acc)
  | fuel + 1, acc, l =>
    match tryMatch l with
    | some (raw, r, rest) =>
        flushAcc acc ++ TextPart.ref ⟨raw⟩ r :: parseTextAux fuel [] rest
    | none =>
      match l with
      | [] => flushAcc acc
      | c :: cs => parseTextAux fuel (c :: acc) cs

/-- Embedding of `parseTextWithCodeRefs` (`src/unnamed/part_003`,
lines 87–123), including the final
`return parts.length > 0 ? parts : [text]`. -/
def parseTextWithCodeRefs (s : String) : List TextPart :=
  let parts := parseTextAux s.data.length [] s.data
  if parts.isEmpty then [TextPart.text s] else parts

/-- Characters contributed by one part to the rendered concatenation. -/
def partChars : TextPart → List Char
  | TextPart.text s => s.data
  | TextPart.ref raw _ => raw.data

/-- Concatenation of the text of all parts, in order. -/
def joinParts (ps : List TextPart) : List Char :=
  ps.foldr (fun p r => partChars p ++ r) []

/-- Concatenating parts distributes over list append. -/
theorem joinParts_append (xs ys : List TextPart) :
    joinParts (xs ++ ys) = joinParts xs ++ joinParts ys := by
  induction xs with
  | nil => simp [joinParts]
  | cons a t ih => simp [joinParts, List.foldr_cons] at ih ⊢; simp [ih]

/-- Flushing an accumulator contributes exactly its characters in order. -/
theorem joinParts_flushAcc (acc : List Char) :
    joinParts (flushAcc acc) = acc.reverse := by
  unfold flushAcc
  by_cases h : acc.isEmpty
  · rw [if_pos h]
    have : acc = [] := List.isEmpty_iff.mp h
    simp [joinParts, this]
  · rw [if_neg h]
    simp [joinParts, partChars]

/-- Reconstruction invariant: at every point of the walk, the concatenation
of the produced parts is the already-consumed text followed by the remaining
input. -/
theorem joinParts_parseTextAux :
    ∀ (fuel : Nat) (acc l : List Char),
      joinParts (parseTextAux fuel acc l) = acc.reverse ++ l := by
  intro fuel
  induction fuel with
  | zero =>
    intro acc l
    simp [parseTextAux, joinParts_flushAcc]
  | succ fuel ih =>
    intro acc l
    cases htm : tryMatch l with
    | some t =>
      obtain ⟨raw, r, rest⟩ := t
      have hsplit : l = raw ++ rest := tryMatch_append htm
      simp only [parseTextAux, htm, joinParts_append]
      have : joinParts (TextPart.ref ⟨raw⟩ r :: parseTextAux fuel [] rest)
          = raw ++ joinParts (parseTextAux fuel [] rest) := by
        simp [joinParts, partChars]
      rw [this, ih [] rest, joinParts_flushAcc, hsplit]
      simp
    | none =>
      cases l with
      | nil => simp [parseTextAux, htm, joinParts_flushAcc]
      | cons c cs =>
        simp only [parseTextAux, htm]
        rw [ih (c :: acc) cs]
        simp

/-- A walk over match-free input produces at most the single pending text
part. -/
theorem parseTextAux_of_no_match :
    ∀ (fuel : Nat) (acc l : List Char), scanAux fuel l = [] →
      parseTextAux fuel acc l = flushAcc (l.reverse ++ acc) := by
  intro fuel
  induction fuel with
  | zero => intro acc l _; rfl
  | succ fuel ih =>
    intro acc l hscan
    cases htm : tryMatch l with
    | some t =>
      obtain ⟨raw, r, rest⟩ := t
      simp only [scanAux, htm] at hscan
      exact absurd hscan (by simp)
    | none =>
      cases l with
      | nil => simp [parseTextAux, htm, flushAcc]
      | cons c cs =>
        simp only [scanAux, htm] at hscan
        simp only [parseTextAux, htm]
        rw [ih (c :: acc) cs hscan]
        have : cs.reverse ++ (c :: acc) = (c :: cs).reverse ++ acc := by simp
        rw [this]

/-- C10: concatenating the plain-text parts with the matched reference
substrings, in order, reconstructs the input text; and when the input has no
match of the code-reference pattern (the scan finds nothing), the result is
exactly the one-element list holding the input unchanged. -/
theorem c10_parseTextWithCodeRefs_reconstructs (s : String) :
    joinParts (parseTextWithCodeRefs s) = s.data ∧
    (scanRefs s = [] → parseTextWithCodeRefs s = [TextPart.text s]) := by
  constructor
  · unfold parseTextWithCodeRefs
    by_cases hp : (parseTextAux s.data.length [] s.data).isEmpty
    · rw [if_pos hp]
      have hkey := joinParts_parseTextAux s.data.length [] s.data
      simp [joinParts, partChars]
    · rw [if_neg hp]
      have hkey := joinParts_parseTextAux s.data.length [] s.data
      simpa using hkey
  · intro hscan
    have hmatches : scanAux s.data.length s.data = [] :=
      List.map_eq_nil_iff.mp hscan
    unfold parseTextWithCodeRefs
    rw [parseTextAux_of_no_match s.data.length [] s.data hmatches]
    by_cases hd : s.data.isEmpty
    · have hnil : s.data = [] := List.isEmpty_iff.mp hd
      simp [flushAcc, hnil]
    · have hne : ¬(s.data.reverse ++ []).isEmpty := by
        simp [List.isEmpty_iff]
        intro hc
        exact absurd (by simp [hc] : s.data = []) (by simpa [List.isEmpty_iff] using hd)
      rw [flushAcc, if_neg hne]
      have : ((s.data.reverse ++ []).reverse : List Char) = s.data := by simp
      rw [this]
      simp [flushAcc]

/-- Witness for C10 at a concrete match-free input. -/
theorem c10_parseTextWithCodeRefs_reconstructs_witness :
    parseTextWithCodeRefs "hello" = [TextPart.text "hello"] :=
  (c10_parseTextWithCodeRefs_reconstructs "hello").2 (by decide)

/-!
Session broker, HTTP gateway and protocol adapter.  The Python implementation
of these components is not part of the shipped sources (only the browser
frontend and documentation are), so the definitions below are modelled from
the specification (§3–§7) and are marked accordingly.
-/

/-- Modelled from the spec: the session `state`, "one of
`Created → Serving → Resolving → Closed`, monotonic" (§3).  The broker
implementation itself is missing from the sources. -/
inductive SessionState where
  | Created
  | Serving
  | Resolving
  | Closed
  deriving Repr, DecidableEq

/-- Position of a state along the forward order
`Created → Serving → Resolving → Closed`. -/
def SessionState.rank : SessionState → Nat
  | SessionState.Created => 0
  | SessionState.Serving => 1
  | SessionState.Resolving => 2
  | SessionState.Closed => 3

/-- Modelled from the spec: the session `outcome`, "unset until `Resolving`;
then exactly one of `Submitted(payload)`, `Cancelled`, `TimedOut`,
`Failed(reason)`" (§3).  The payload is the submit payload of the frontend. -/
inductive Outcome where
  | Submitted (payload : SubmitPayload)
  | Cancelled
  | TimedOut
  | Failed (reason : String)
  deriving Repr, DecidableEq

/-- Modelled from the spec: a `ReviewSession` (§3), restricted to the fields
the verified invariants are about (`id`, `port`, `state`, `outcome`). -/
structure Session where
  id : Nat
  port : Nat
  state : SessionState
  outcome : Option Outcome
  deriving Repr, DecidableEq

/-- A session is live while its listener exists, i.e. until it is `Closed`. -/
def Session.isLive (s : Session) : Bool := s.state ≠ SessionState.Closed

/-- Port held by a session if it is live. -/
def livePort (s : Session) : Option Nat := if s.isLive then some s.port else none

/-- Modelled from the spec: the broker's owned registry of sessions (§9,
"explicit owned registry object"), with a fresh-id counter. -/
structure Broker where
  sessions : List Session
  nextId : Nat
  deriving Repr, DecidableEq

/-- Empty broker. -/
def Broker.init : Broker := ⟨[], 0⟩

/-- Ports currently held by live sessions, "the set of currently-bound
ports" (§5). -/
def livePorts (b : Broker) : List Nat := b.sessions.filterMap livePort

/-- Modelled from the spec: `resolve(session, outcome) → bool` (§4.1):
"Returns `true` only for the call that performs the actual first-writer
transition from `Serving`/`Resolving` to settled; all later calls return
`false` and have no observable effect." -/
def resolveSession (s : Session) (out : Outcome) : Session × Bool :=
  if s.outcome = none ∧
      (s.state = SessionState.Serving ∨ s.state = SessionState.Resolving) then
    ({ s with outcome := some out, state := SessionState.Resolving }, true)
  else (s, false)

/-- Modelled from the spec: the gateway's submit endpoint (§4.2, §6):
"calls the broker's `resolve`. If `resolve` returns `false` (already
resolved), respond with a conflict status"; `200` on first submission,
`409` on resubmission. -/
def submitFeedback (s : Session) (payload : SubmitPayload) : Session × Nat :=
  match resolveSession s (Outcome.Submitted payload) with
  | (s', true) => (s', 200)
  | (s', false) => (s', 409)

/-- Modelled from the spec: `create` (§4.1) registers a fresh session in
`Serving` state holding the OS-assigned port. -/
def brokerCreate (b : Broker) (port : Nat) : Broker :=
  { sessions :=
      { id := b.nextId, port := port, state := SessionState.Serving,
        outcome := none } :: b.sessions,
    nextId := b.nextId + 1 }

/-- Apply `f` to the session with id `i` (if present), leaving others
untouched; resolution is scoped to the single session (§5). -/
def updateSession (b : Broker) (i : Nat) (f : Session → Session) : Broker :=
  { b with sessions := b.sessions.map fun s => if s.id = i then f s else s }

/-- Modelled from the spec: broker-level `resolve` on the session with
id `i` (§4.1). -/
def brokerResolve (b : Broker) (i : Nat) (out : Outcome) : Broker :=
  updateSession b i (fun s => (resolveSession s out).1)

/-- Modelled from the spec: `close(session)` (§4.1): "stops the listener,
releases the port, transitions to `Closed`". -/
def brokerClose (b : Broker) (i : Nat) : Broker :=
  updateSession b i (fun s => { s with state := SessionState.Closed })

/-- Modelled from the spec: cancellation (§5): the broker "must then
force-resolve the session as `Cancelled` and release its port"; an already
settled outcome is kept (first-writer-wins). -/
def brokerCancel (b : Broker) (i : Nat) : Broker :=
  updateSession b i (fun s =>
    { s with
        outcome := some (s.outcome.getD Outcome.Cancelled),
        state := SessionState.Closed })

/-- Session lookup by id. -/
def findSession (b : Broker) (i : Nat) : Option Session :=
  b.sessions.find? (fun s => s.id == i)

/-- Modelled from the spec: `await` (§4.2) returns the outcome once the
session's one-shot promise is fulfilled. -/
def awaitOutcome (s : Session) : Option Outcome := s.outcome

/-- One broker operation.  `create` carries the OS guarantee that binding to
port 0 yields a port no live listener currently holds (§3, §9). -/
inductive Step : Broker → Broker → Prop where
  | create (b : Broker) (port : Nat) (hfresh : port ∉ livePorts b) :
      Step b (brokerCreate b port)
  | resolve (b : Broker) (i : Nat) (out : Outcome) : Step b (brokerResolve b i out)
  | close (b : Broker) (i : Nat) : Step b (brokerClose b i)
  | cancel (b : Broker) (i : Nat) : Step b (brokerCancel b i)

/-- Broker states reachable from the empty broker by any sequence of
operations. -/
inductive Reachable : Broker → Prop where
  | init : Reachable Broker.init
  | step {b b' : Broker} : Reachable b → Step b b' → Reachable b'

/-- All registered ids are below the fresh-id counter. -/
def IdInv (b : Broker) : Prop := ∀ s ∈ b.sessions, s.id < b.nextId

/-- No two live sessions share a port. -/
def PortInv (b : Broker) : Prop :=
  b.sessions.Pairwise
    (fun s t => s.isLive = true → t.isLive = true → s.port ≠ t.port)

/-- Per-session updates that keep ports and never revive a closed session
preserve the port invariant. -/
theorem PortInv_updateSession (b : Broker) (i : Nat) (f : Session → Session)
    (hport : ∀ s, (f s).port = s.port)
    (hlive : ∀ s, (f s).isLive = true → s.isLive = true)
    (hinv : PortInv b) : PortInv (updateSession b i f) := by
  have gport : ∀ x : Session, (if x.id = i then f x else x).port = x.port := by
    intro x; split
    · exact hport x
    · rfl
  have glive : ∀ x : Session, (if x.id = i then f x else x).isLive = true →
      x.isLive = true := by
    intro x hx
    by_cases hxi : x.id = i
    · rw [if_pos hxi] at hx; exact hlive x hx
    · rwa [if_neg hxi] at hx
  unfold PortInv updateSession
  rw [List.pairwise_map]
  refine hinv.imp ?_
  intro a b hab hla hlb
  rw [gport a, gport b]
  exact hab (glive a hla) (glive b hlb)

/-- Per-session updates that keep ids preserve the id bound. -/
theorem IdInv_updateSession (b : Broker) (i : Nat) (f : Session → Session)
    (hid : ∀ s, (f s).id = s.id) (hinv : IdInv b) : IdInv (updateSession b i f) := by
  intro s hs
  obtain ⟨u, hu, hgu⟩ := List.mem_map.mp hs
  subst hgu
  have : (if u.id = i then f u else u).id = u.id := by
    split
    · exact hid u
    · rfl
  rw [this]
  exact hinv u hu

/-- Creating a session with a fresh port preserves both invariants. -/
theorem Inv_brokerCreate (b : Broker) (port : Nat) (hfresh : port ∉ livePorts b)
    (hinv : IdInv b ∧ PortInv b) : IdInv (brokerCreate b port) ∧ PortInv (brokerCreate b port) := by
  obtain ⟨hid, hports⟩ := hinv
  constructor
  · intro s hs
    rcases List.mem_cons.mp hs with h | h
    · subst h; simp [brokerCreate]
    · have := hid s h
      simp only [brokerCreate]
      omega
  · unfold PortInv brokerCreate
    rw [List.pairwise_cons]
    refine ⟨?_, hports⟩
    intro t ht _ hlt heq
    apply hfresh
    have hpt : port = t.port := heq
    rw [hpt]
    exact List.mem_filterMap.mpr ⟨t, ht, by simp [livePort, hlt]⟩

/-- The resolve update keeps the port. -/
theorem resolveSession_port (s : Session) (out : Outcome) :
    ((resolveSession s out).1).port = s.port := by
  unfold resolveSession
  split <;> rfl

/-- The resolve update keeps the id. -/
theorem resolveSession_id (s : Session) (out : Outcome) :
    ((resolveSession s out).1).id = s.id := by
  unfold resolveSession
  split <;> rfl

/-- The resolve update never revives a session. -/
theorem resolveSession_live (s : Session) (out : Outcome) :
    ((resolveSession s out).1).isLive = true → s.isLive = true := by
  unfold resolveSession
  split
  · rename_i h
    intro _
    rcases h.2 with h2 | h2 <;> simp [Session.isLive, h2]
  · exact id

/-- States reachable by the broker satisfy the id bound and the port
invariant. -/
theorem reachable_inv (b : Broker) (h : Reachable b) : IdInv b ∧ PortInv b := by
  induction h with
  | init =>
    constructor
    · intro s hs; simp [Broker.init] at hs
    · unfold PortInv Broker.init
      exact List.Pairwise.nil
  | step _ hstep ih =>
    rename_i b b' _
    cases hstep with
    | create port hfresh => exact Inv_brokerCreate b port hfresh ih
    | resolve i out =>
      exact ⟨IdInv_updateSession b i _ (fun s => resolveSession_id s out) ih.1,
        PortInv_updateSession b i _ (fun s => resolveSession_port s out)
          (fun s => resolveSession_live s out) ih.2⟩
    | close i =>
      refine ⟨IdInv_updateSession b i _ (fun s => rfl) ih.1,
        PortInv_updateSession b i _ (fun s => rfl) ?_ ih.2⟩
      intro s hs
      simp [Session.isLive] at hs
    | cancel i =>
      refine ⟨IdInv_updateSession b i _ (fun s => rfl) ih.1,
        PortInv_updateSession b i _ (fun s => rfl) ?_ ih.2⟩
      intro s hs
      simp [Session.isLive] at hs

/-- The pairwise port relation is symmetric. -/
theorem portRel_symm :
    Symmetric (fun s t : Session =>
      s.isLive = true → t.isLive = true → s.port ≠ t.port) := by
  intro a b hab hlb hla
  exact (hab hla hlb).symm

/-- C4: in every reachable broker state, live sessions hold pairwise-distinct
ports: no two distinct live sessions ever share a port. -/
theorem c4_live_ports_distinct (b : Broker) (h : Reachable b) :
    PortInv b ∧
    ∀ s ∈ b.sessions, ∀ t ∈ b.sessions, s ≠ t →
      s.isLive = true → t.isLive = true → s.port ≠ t.port := by
  have hinv := (reachable_inv b h).2
  exact ⟨hinv, fun s hs t ht hne => hinv.forall portRel_symm hs ht hne⟩

/-- Witness for C4 at a concrete reachable broker holding two live
sessions. -/
theorem c4_live_ports_distinct_witness :
    PortInv (brokerCreate (brokerCreate Broker.init 5) 6) :=
  (c4_live_ports_distinct (brokerCreate (brokerCreate Broker.init 5) 6)
    (Reachable.step (Reachable.step Reachable.init
      (Step.create Broker.init 5 (by decide)))
      (Step.create (brokerCreate Broker.init 5) 6 (by decide)))).1

/-- Lookup in an updated broker returns the updated session. -/
theorem findSession_updateSession (b : Broker) (j i : Nat) (f : Session → Session)
    (hid : ∀ s, (f s).id = s.id) :
    findSession (updateSession b j f) i
      = (findSession b i).map (fun s => if s.id = j then f s else s) := by
  unfold findSession updateSession
  rw [List.find?_map]
  have hpred : ((fun s : Session => s.id == i) ∘ fun s => if s.id = j then f s else s)
      = fun s : Session => s.id == i := by
    funext s
    simp only [Function.comp]
    split
    · rw [hid s]
    · rfl
  rw [hpred]

/-- Every session state sits at rank at most `Closed`. -/
theorem rank_le_closed (st : SessionState) : st.rank ≤ SessionState.Closed.rank := by
  cases st <;> simp [SessionState.rank]

/-- Resolution never moves a session backwards. -/
theorem rank_le_resolveSession (s : Session) (out : Outcome) :
    s.state.rank ≤ ((resolveSession s out).1).state.rank := by
  unfold resolveSession
  split
  · rename_i h
    rcases h.2 with h2 | h2 <;> simp [h2, SessionState.rank]
  · exact le_refl _

/-- C6: across any broker operation, the state of every session only moves
forward along `Created → Serving → Resolving → Closed` (measured by
`SessionState.rank`); no operation transitions a session to an earlier
state. -/
theorem c6_session_state_monotonic (b b' : Broker) (hreach : Reachable b)
    (hstep : Step b b') (i : Nat) (s s' : Session)
    (h1 : findSession b i = some s) (h2 : findSession b' i = some s') :
    s.state.rank ≤ s'.state.rank := by
  cases hstep with
  | create port hfresh =>
    have hid := (reachable_inv b hreach).1
    have hmem : s ∈ b.sessions := List.mem_of_find?_eq_some h1
    have hsi : s.id = i := by
      have := List.find?_some h1
      simpa using this
    have hlt : s.id < b.nextId := hid s hmem
    unfold findSession brokerCreate at h2
    rw [List.find?_cons_of_neg] at h2
    · have : some s = some s' := h1 ▸ h2
      injection this with h
      rw [h]
    · simp only [beq_iff_eq]
      omega
  | resolve j out =>
    unfold brokerResolve at h2
    rw [findSession_updateSession b j i _ (fun s => resolveSession_id s out), h1] at h2
    simp only [Option.map_some'] at h2
    injection h2 with h2
    rw [← h2]
    split
    · exact rank_le_resolveSession s out
    · exact le_refl _
  | close j =>
    unfold brokerClose at h2
    rw [findSession_updateSession b j i
      (fun s => { s with state := SessionState.Closed }) (fun s => rfl), h1] at h2
    simp only [Option.map_some'] at h2
    injection h2 with h2
    rw [← h2]
    split
    · exact rank_le_closed s.state
    · exact le_refl _
  | cancel j =>
    unfold brokerCancel at h2
    rw [findSession_updateSession b j i
      (fun s =>
        { s with
            outcome := some (s.outcome.getD Outcome.Cancelled)
            state := SessionState.Closed }) (fun s => rfl), h1] at h2
    simp only [Option.map_some'] at h2
    injection h2 with h2
    rw [← h2]
    split
    · exact rank_le_closed s.state
    · exact le_refl _

/-- Witness for C6 at a concrete step: resolving the single live session
moves it from `Serving` (rank 1) to `Resolving` (rank 2). -/
theorem c6_session_state_monotonic_witness :
    (SessionState.Serving).rank ≤ (SessionState.Resolving).rank :=
  c6_session_state_monotonic (brokerCreate Broker.init 5)
    (brokerResolve (brokerCreate Broker.init 5) 0 Outcome.Cancelled)
    (Reachable.step Reachable.init (Step.create Broker.init 5 (by decide)))
    (Step.resolve (brokerCreate Broker.init 5) 0 Outcome.Cancelled)
    0
    ⟨0, 5, SessionState.Serving, none⟩
    ⟨0, 5, SessionState.Resolving, some Outcome.Cancelled⟩
    (by decide) (by decide)

/-- C2: on an unresolved serving session, the first submit is accepted with
status 200 and settles the session with its payload; any later submit gets
the conflict status 409 and leaves the stored outcome unchanged; `resolve`
returns `true` exactly for the settling call and `false` for every later
call. -/
theorem c2_submit_first_writer_wins (s : Session) (p1 : SubmitPayload)
    (h1 : s.state = SessionState.Serving) (h2 : s.outcome = none) :
    submitFeedback s p1
      = ({ s with
            outcome := some (Outcome.Submitted p1)
            state := SessionState.Resolving }, 200) ∧
    (∀ q : SubmitPayload,
      submitFeedback
          { s with
              outcome := some (Outcome.Submitted p1)
              state := SessionState.Resolving } q
        = ({ s with
              outcome := some (Outcome.Submitted p1)
              state := SessionState.Resolving }, 409)) ∧
    (resolveSession s (Outcome.Submitted p1)).2 = true ∧
    (∀ out : Outcome,
      (resolveSession
          { s with
              outcome := some (Outcome.Submitted p1)
              state := SessionState.Resolving } out).2 = false) := by
  refine ⟨?_, ?_, ?_, ?_⟩
  · simp [submitFeedback, resolveSession, h1, h2]
  · intro q
    simp [submitFeedback, resolveSession]
  · simp [resolveSession, h1, h2]
  · intro out
    simp [resolveSession]

/-- Witness for C2 at a concrete session and payloads. -/
theorem c2_submit_first_writer_wins_witness :
    submitFeedback ⟨0, 5, SessionState.Serving, none⟩ ⟨[], [], none⟩
      = (⟨0, 5, SessionState.Resolving,
          some (Outcome.Submitted ⟨[], [], none⟩)⟩, 200) ∧
    submitFeedback
        ⟨0, 5, SessionState.Resolving, some (Outcome.Submitted ⟨[], [], none⟩)⟩
        ⟨[], [], some "late"⟩
      = (⟨0, 5, SessionState.Resolving,
          some (Outcome.Submitted ⟨[], [], none⟩)⟩, 409) := by
  have h := c2_submit_first_writer_wins ⟨0, 5, SessionState.Serving, none⟩
    ⟨[], [], none⟩ rfl rfl
  exact ⟨h.1, h.2.1 ⟨[], [], some "late"⟩⟩

/-- C7: cancelling an unresolved serving session (the state in which `await`
is blocked) force-resolves it as `Cancelled` — so `await` returns
`Cancelled` — closes it within the single cancel operation, and releases its
port: the port is no longer held by any live session, so it cannot block
future port allocation. -/
theorem c7_cancel_releases_port (b : Broker) (i : Nat) (s : Session)
    (hreach : Reachable b) (hfind : findSession b i = some s)
    (hserv : s.state = SessionState.Serving) (hout : s.outcome = none) :
    findSession (brokerCancel b i) i
      = some { s with
          outcome := some Outcome.Cancelled
          state := SessionState.Closed } ∧
    awaitOutcome
        { s with
            outcome := some Outcome.Cancelled
            state := SessionState.Closed } = some Outcome.Cancelled ∧
    s.port ∉ livePorts (brokerCancel b i) := by
  have hsi : s.id = i := by
    have := List.find?_some hfind
    simpa using this
  have hmem : s ∈ b.sessions := List.mem_of_find?_eq_some hfind
  refine ⟨?_, rfl, ?_⟩
  · unfold brokerCancel
    rw [findSession_updateSession b i i
      (fun s =>
        { s with
            outcome := some (s.outcome.getD Outcome.Cancelled)
            state := SessionState.Closed }) (fun s => rfl), hfind]
    simp [hsi, hout]
  · intro hmemport
    unfold brokerCancel updateSession livePorts at hmemport
    simp only [List.filterMap_map] at hmemport
    obtain ⟨u, hu, hlu⟩ := List.mem_filterMap.mp hmemport
    by_cases hui : u.id = i
    · rw [Function.comp, if_pos hui] at hlu
      simp [livePort, Session.isLive] at hlu
    · rw [Function.comp, if_neg hui] at hlu
      have hulive : u.isLive = true ∧ u.port = s.port := by
        unfold livePort at hlu
        split at hlu
        · rename_i hl
          exact ⟨hl, Option.some.inj hlu⟩
        · exact absurd hlu (by simp)
      have hslive : s.isLive = true := by
        simp [Session.isLive, hserv]
      have hne : s ≠ u := by
        intro he
        exact hui (he ▸ hsi)
      have hpair := (reachable_inv b hreach).2
      exact hpair.forall portRel_symm hmem hu hne hslive hulive.1 hulive.2.symm

/-- Witness for C7 at a concrete one-session broker. -/
theorem c7_cancel_releases_port_witness :
    findSession (brokerCancel (brokerCreate Broker.init 5) 0) 0
      = some ⟨0, 5, SessionState.Closed, some Outcome.Cancelled⟩ ∧
    awaitOutcome ⟨0, 5, SessionState.Closed, some Outcome.Cancelled⟩
      = some Outcome.Cancelled ∧
    (5 : Nat) ∉ livePorts (brokerCancel (brokerCreate Broker.init 5) 0) := by
  have h := c7_cancel_releases_port (brokerCreate Broker.init 5) 0
    ⟨0, 5, SessionState.Serving, none⟩
    (Reachable.step Reachable.init (Step.create Broker.init 5 (by decide)))
    (by decide) rfl rfl
  exact h

/-!
Protocol adapter: the component that maps the browser's submitted payload to
the external invocation's response shape.  It is not part of the shipped
sources, so it is modelled from the specification (§2, §4.3, §6).
-/

/-- Modelled from the spec: the adapter's success-output comment shape
`Comment = { id: string, quote: string, context_line: string, note: string,
created_at: number }` (§6). -/
structure AdapterComment where
  id : String
  quote : String
  context_line : String
  note : String
  created_at : Nat
  deriving Repr, DecidableEq

/-- Modelled from the spec: the adapter's success output
`{ comments: Comment[], overall_comment: string | null }` (§6). -/
structure AdapterResult where
  comments : List AdapterComment
  overall_comment : Option String
  deriving Repr, DecidableEq

/-- Modelled from the spec: the adapter "maps the feedback payload into the
invocation's response" (§4.3); each submitted inline comment (id, quoted
excerpt, surrounding context, human note, creation time — §3) maps to the
output comment shape of §6 field by field, unchanged. -/
def adaptComment (c : Comment) : AdapterComment :=
  { id := c.id
    quote := c.quote
    context_line := c.full_line_text
    note := c.user_comment
    created_at := c.timestamp }

/-- Modelled from the spec: adapter output on a successful submission (§4.3,
§6): the comment list is mapped one-to-one and the overall comment is
carried over. -/
def adaptPayload (p : SubmitPayload) : AdapterResult :=
  { comments := p.comments.map adaptComment
    overall_comment := p.user_overall_comment }

/-- C5: if the submitted payload contains exactly one comment with a given
quote and note, then the adapter's output — of shape
`{ comments, overall_comment }` with comments of the five-field shape —
contains exactly one entry with that quote and note, unchanged, and the
overall comment is carried over unchanged. -/
theorem c5_adapter_preserves_comment (p : SubmitPayload) (q n : String)
    (h : p.comments.countP (fun c => c.quote == q && c.user_comment == n) = 1) :
    (adaptPayload p).comments.countP (fun c => c.quote == q && c.note == n) = 1 ∧
    (adaptPayload p).overall_comment = p.user_overall_comment ∧
    ∀ c ∈ p.comments,
      (adaptComment c).quote = c.quote ∧ (adaptComment c).note = c.user_comment := by
  refine ⟨?_, rfl, fun c _ => ⟨rfl, rfl⟩⟩
  show ((p.comments.map adaptComment).countP fun c => c.quote == q && c.note == n) = 1
  rw [List.countP_map]
  exact h

/-- Witness for C5: a single comment quoting `foo` with note `bar` appears in
the adapter output exactly once, unchanged. -/
theorem c5_adapter_preserves_comment_witness :
    (adaptPayload ⟨[⟨"id1", "foo", "line", "bar", 7, "ctx"⟩], [], none⟩).comments.countP
        (fun c => c.quote == "foo" && c.note == "bar") = 1 :=
  (c5_adapter_preserves_comment ⟨[⟨"id1", "foo", "line", "bar", 7, "ctx"⟩], [], none⟩
    "foo" "bar" (by decide)).1

/-!
File endpoint.  The gateway's `/api/file` handler is not part of the shipped
sources; its path authorization is modelled from the specification (§4.2,
§6, §7, §8).
-/

/-- Split a character list into segments on `/`. -/
def splitPathAux : List Char → List Char → List String
  | acc, [] => [⟨acc.reverse⟩]
  | acc, c :: cs =>
    if c = '/' then (⟨acc.reverse⟩ : String) :: splitPathAux [] cs
    else splitPathAux (c :: acc) cs

/-- Split a request path into segments on `/`. -/
def splitPath (p : String) : List String := splitPathAux [] p.data

/-- A request path is absolute when it starts with `/`. -/
def isAbsolutePath (p : String) : Bool :=
  match p.data with
  | '/' :: _ => true
  | _ => false

/-- Modelled from the spec: path normalization (§4.2 "escapes the root after
normalization"): drop empty and `.` segments, let `..` pop the previous
segment, and fail when `..` climbs above the start. -/
def normalizeInto : List String → List String → Option (List String)
  | stack, [] => some stack.reverse
  | stack, seg :: rest =>
    if seg = "." ∨ seg = "" then normalizeInto stack rest
    else if seg = ".." then
      match stack with
      | [] => none
      | _ :: stack' => normalizeInto stack' rest
    else normalizeInto (seg :: stack) rest

/-- Modelled from the spec: resolve a request path against `rootPath` (§4.2):
an absolute path overrides the root, a relative path is appended to it, and
the result is normalized. -/
def resolvePath (root : List String) (p : String) : Option (List String) :=
  normalizeInto [] (if isAbsolutePath p then splitPath p else root ++ splitPath p)

/-- A request path escapes the root when its resolution climbs out of the
filesystem or does not stay under `rootPath`. -/
def escapesRoot (root : List String) (p : String) : Bool :=
  match resolvePath root p with
  | none => true
  | some r => ¬ root.isPrefixOf r

/-- Modelled from the spec: the `/api/file` endpoint (§4.2, §6, §8): it
"rejects (with a distinct error) any path that escapes the root after
normalization (`../` traversal, symlink escape, absolute-path override)" and
per §8 rejects "any path containing `../` segments"; only paths that stay
under `rootPath` are looked up in the file table. -/
def serveFile (root : List String) (fs : List (List String × String)) (p : String) :
    Except String String :=
  if (splitPath p).contains ".." then Except.error "PathTraversalError"
  else if escapesRoot root p then Except.error "PathTraversalError"
  else
    match resolvePath root p with
    | none => Except.error "PathTraversalError"
    | some r =>
      match fs.lookup r with
      | some content => Except.ok content
      | none => Except.error "NotFound"

/-- C3: for every file request whose path contains a `..` segment or
otherwise resolves outside the session's `rootPath` after normalization, the
endpoint returns the rejection error and never file content, whatever files
exist. -/
theorem c3_file_endpoint_rejects_traversal (root : List String)
    (fs : List (List String × String)) (p : String)
    (h : (splitPath p).contains ".." = true ∨ escapesRoot root p = true) :
    serveFile root fs p = Except.error "PathTraversalError" ∧
    ∀ content, serveFile root fs p ≠ Except.ok content := by
  have hserve : serveFile root fs p = Except.error "PathTraversalError" := by
    unfold serveFile
    rcases h with h | h
    · rw [if_pos h]
    · by_cases hdot : (splitPath p).contains ".."
      · rw [if_pos hdot]
      · rw [if_neg hdot, if_pos h]
  refine ⟨hserve, ?_⟩
  intro content hcontent
  rw [hserve] at hcontent
  exact absurd hcontent (by simp)

/-- Witness for C3 at a concrete traversal request: even though the escaped
target exists in the file table, the endpoint rejects. -/
theorem c3_file_endpoint_rejects_traversal_witness :
    serveFile ["home", "user"] [(["etc", "passwd"], "secret")] "../etc/passwd"
      = Except.error "PathTraversalError" :=
  (c3_file_endpoint_rejects_traversal ["home", "user"]
    [(["etc", "passwd"], "secret")] "../etc/passwd" (Or.inl (by decide))).1

end Redline
